import Mathlib

/-!
Verification of the Backupmaker core (`bu_script.py`).

The development shallowly embeds the `BackupPaths` class: YAML values and
path lists, the validation pass (`__validate_path_list`), size accounting
(`__calc_backup_size`), the free-space check (`__calc_free_memory`), and the
copy engine (`make_backup`, `__make_backup_subdir`, `__copy_to_subdir`).
Filesystem trees are modelled as mutually inductive entries/directories;
`shutil.copy2` and `shutil.copytree(dirs_exist_ok=True)` become an overlay
(merge) operation that fails (`Option.none`) exactly where the Python calls
raise.
-/

set_option maxHeartbeats 1000000

namespace Backupmaker

/-- An element of a YAML path list: either a string or some non-string value
(abstracted by a tag, since the script only checks `isinstance(path, str)`). -/
inductive YElem where
  | str : String → YElem
  | nonstr : Nat → YElem
  deriving DecidableEq, Repr

/-- The string carried by a list element; non-strings never reach the places
where this is used (the script raises `TypeError` first). -/
def strOf : YElem → String
  | .str s => s
  | .nonstr _ => ""

/-- Whether the element is a string (`isinstance(path, str)`). -/
def isStrElem : YElem → Bool
  | .str _ => true
  | .nonstr _ => false

/-- A YAML value as it can appear for a configuration key: a list of
elements, or one of the non-list shapes the claims mention (a string, a
dict abstracted by its key list, `None`). -/
inductive YVal where
  | vlist : List YElem → YVal
  | vstr : String → YVal
  | vdict : List String → YVal
  | vnone : YVal
  deriving DecidableEq, Repr

/-- Python truthiness of a YAML value (`if not path_list`). -/
def truthy : YVal → Bool
  | .vlist xs => !xs.isEmpty
  | .vstr s => !s.isEmpty
  | .vdict ks => !ks.isEmpty
  | .vnone => false

/-- Python `isinstance(path_list, list)`. -/
def isListVal : YVal → Bool
  | .vlist _ => true
  | _ => false

/-- The elements of a list value; `[]` for the non-list shapes (which never
reach the element loops: validation raises `YamlListError` first). -/
def pathsOfVal : YVal → List YElem
  | .vlist xs => xs
  | _ => []

/-- Python iteration over a value (`for path in value`): lists yield their
elements, strings their characters, dicts their keys, and `None` raises
`TypeError` (modelled as `none`). -/
def iterVal : YVal → Option (List YElem)
  | .vlist xs => some xs
  | .vstr s => some (s.data.map fun c => .str (String.mk [c]))
  | .vdict ks => some (ks.map .str)
  | .vnone => none

mutual
/-- A filesystem entry: a regular file with its byte content, or a
directory with its named children. -/
inductive FSEntry where
  | file : List Nat → FSEntry
  | dir : FSDir → FSEntry

/-- The children of a directory, in listing order. -/
inductive FSDir where
  | nil : FSDir
  | cons : String → FSEntry → FSDir → FSDir
end

/-- First child of the directory with the given name, if any. -/
def lookupD : FSDir → String → Option FSEntry
  | .nil, _ => none
  | .cons k e rest, k' => if k = k' then some e else lookupD rest k'

/-- Replace the first child with the given name, or append a new one. -/
def setD : FSDir → String → FSEntry → FSDir
  | .nil, k, v => .cons k v .nil
  | .cons k₁ e rest, k, v =>
    if k₁ = k then .cons k v rest else .cons k₁ e (setD rest k v)

/-- The child names of a directory, in listing order. -/
def keysD : FSDir → List String
  | .nil => []
  | .cons k _ rest => k :: keysD rest

/-- All values stored under a given name (several only if the directory is
not well formed), in listing order. -/
def valuesAt (k : String) : FSDir → List FSEntry
  | .nil => []
  | .cons k₁ e rest => if k₁ = k then e :: valuesAt k rest else valuesAt k rest

mutual
/-- Size measure of an entry, for strong induction. -/
def sizeE : FSEntry → Nat
  | .file _ => 1
  | .dir d => 1 + sizeD d

/-- Size measure of a directory listing. -/
def sizeD : FSDir → Nat
  | .nil => 0
  | .cons _ e rest => sizeE e + sizeD rest
end

mutual
/-- A well-formed entry: every directory in it has distinct child names
(as on a real filesystem). -/
def WFe : FSEntry → Bool
  | .file _ => true
  | .dir d => WFd d

/-- A well-formed directory listing: distinct names, well-formed entries. -/
def WFd : FSDir → Bool
  | .nil => true
  | .cons k e rest => !(keysD rest).contains k && WFe e && WFd rest
end

/-- The ambient environment the script runs against: path syntax checks,
the filesystem contents, directory stat sizes, `os.path.split`, and the
free-byte count reported by `shutil.disk_usage` for a volume string. -/
structure Env where
  isAbs : String → Bool
  readEntry : String → Option FSEntry
  dirStatSize : String → Nat
  basename : String → String
  disk : String → Nat

/-- Python `os.path.exists`. -/
def pathExists (env : Env) (p : String) : Bool :=
  (env.readEntry p).isSome

/-- Python `os.stat(path).st_size`: a file's byte length, a directory's
metadata-reported size. The `none` branch is unreachable after validation
(`os.stat` would raise). -/
def statSize (env : Env) (p : String) : Nat :=
  match env.readEntry p with
  | some (.file c) => c.length
  | some (.dir _) => env.dirStatSize p
  | none => 0

/-- The accumulated problem report (`self.problems`). -/
structure Problems where
  nonstr_paths : List YElem
  nonabs_paths : List String
  nonexistent_paths : List String
  failed_targets : List YElem
  deriving DecidableEq, Repr

/-- The empty report created in `__init__`. -/
def emptyProblems : Problems := ⟨[], [], [], []⟩

/-- The exceptions the script raises during configuration. -/
inductive VErr where
  | noBackup : VErr
  | yamlList : VErr
  | typeError : VErr
  | valueError : VErr
  | fileNotFound : VErr
  deriving DecidableEq, Repr

/-- The state of a `BackupPaths` object. -/
structure BackupPaths where
  targets : List YElem
  elems : List (String × YVal)
  backupSize : Nat
  problems : Problems
  deriving Repr

/-- The state built by `BackupPaths.__init__`. -/
def newBackupPaths : BackupPaths := ⟨[], [], 0, emptyProblems⟩

/-- Embedding of `BackupPaths.__validate_path_list`.  Checks, in the source
order: truthiness (`NoBackupError`), list-ness (`YamlListError`), then one
pass accumulating non-string elements (raise `TypeError` if any), then one
pass accumulating non-absolute and non-existent paths (raise `ValueError`
if any non-absolute, else `FileNotFoundError` if any non-existent).
Exceptions carry the mutated report, as the Python object keeps it. -/
def validate_path_list (env : Env) (pr : Problems) (v : YVal) :
    Except (VErr × Problems) Problems :=
  if !truthy v then .error (.noBackup, pr)
  else
    match v with
    | .vlist xs =>
      let pr1 := { pr with
        nonstr_paths := pr.nonstr_paths ++ xs.filter (fun e => !isStrElem e) }
      if !pr1.nonstr_paths.isEmpty then .error (.typeError, pr1)
      else
        let pr2 := { pr1 with
          nonabs_paths := pr1.nonabs_paths ++
            (xs.filter (fun e => !env.isAbs (strOf e))).map strOf,
          nonexistent_paths := pr1.nonexistent_paths ++
            (xs.filter (fun e => !pathExists env (strOf e))).map strOf }
        if !pr2.nonabs_paths.isEmpty then .error (.valueError, pr2)
        else if !pr2.nonexistent_paths.isEmpty then .error (.fileNotFound, pr2)
        else .ok pr2
    | _ => .error (.yamlList, pr)

/-- The `target` property setter: validate, then store the list. -/
def target_set (env : Env) (bp : BackupPaths) (v : YVal) :
    Except (VErr × BackupPaths) BackupPaths :=
  match validate_path_list env bp.problems v with
  | .error (e, pr') => .error (e, { bp with problems := pr' })
  | .ok pr' => .ok { bp with problems := pr', targets := pathsOfVal v }

/-- Validation of every value of the `to_backup` dict, in insertion order,
threading the shared report. -/
def validateAll (env : Env) (pr : Problems) :
    List YVal → Except (VErr × Problems) Problems
  | [] => .ok pr
  | v :: vs =>
    match validate_path_list env pr v with
    | .error e => .error e
    | .ok pr' => validateAll env pr' vs

/-- Size contributed by one group value
(`sum([os.stat(path).st_size for path in path_list])`). -/
def groupSize (env : Env) (v : YVal) : Nat :=
  ((pathsOfVal v).map (fun e => statSize env (strOf e))).sum

/-- Embedding of `BackupPaths.__calc_backup_size`: the sum of the top-level
stat sizes over every group, with no recursion into directories. -/
def calc_backup_size (env : Env) (d : List (String × YVal)) : Nat :=
  (d.map (fun kv => groupSize env kv.2)).sum

/-- The `paths` property setter: reject a falsy dict (`NoBackupError`),
validate every value, then compute and store the backup size and store the
dict itself. -/
def paths_set (env : Env) (bp : BackupPaths) (d : List (String × YVal)) :
    Except (VErr × BackupPaths) BackupPaths :=
  if d.isEmpty then .error (.noBackup, bp)
  else
    match validateAll env bp.problems (d.map (·.2)) with
    | .error (e, pr') => .error (e, { bp with problems := pr' })
    | .ok pr' =>
      .ok { bp with problems := pr',
                    backupSize := calc_backup_size env d,
                    elems := d }

/-- Embedding of `BackupPaths.__calc_free_memory`: free bytes of the volume
denoted by the first two characters of the directory string
(`shutil.disk_usage(directory[:2])`). -/
def calc_free_memory (env : Env) (dir : String) : Nat :=
  env.disk (dir.take 2)

/-- The capacity check of `make_backup`, as a predicate: the target is kept
iff `free_mem <= self.__backup_size` is false. -/
def hasCapacity (env : Env) (root : String) (required : Nat) : Bool :=
  !(calc_free_memory env root ≤ required)

mutual
/-- Merge a source entry onto an existing destination entry, as the copy
step does: a source file overwrites a destination file (`shutil.copy2`) but
cannot replace a directory (`IsADirectoryError`); a source directory merges
into a destination directory (`copytree(dirs_exist_ok=True)`) but cannot
replace a file (`FileExistsError` from `os.makedirs`). -/
def mergeE : FSEntry → FSEntry → Option FSEntry
  | .file c, .file _ => some (.file c)
  | .file _, .dir _ => none
  | .dir _, .file _ => none
  | .dir a, .dir d =>
    match overlay a d with
    | none => none
    | some r => some (.dir r)

/-- Copy each child of a source directory into a destination listing, in
order: fresh names are created, existing ones are merged via `mergeE`. -/
def overlay : FSDir → FSDir → Option FSDir
  | .nil, ds => some ds
  | .cons k e rest, ds =>
    match lookupD ds k with
    | none => overlay rest (setD ds k e)
    | some d =>
      match mergeE e d with
      | none => none
      | some r => overlay rest (setD ds k r)
end

/-- Merge a source entry into an optional destination slot: absent slots
receive a fresh copy of the source. -/
def mergeOpt (e : FSEntry) : Option FSEntry → Option FSEntry
  | none => some e
  | some d => mergeE e d

/-- Embedding of `BackupPaths.__make_backup_subdir`: the state of the
`root_dir/name` slot after `os.mkdir` ran if nothing was there.  An
existing entry — even a file — is left as is (`os.path.exists` is true, so
`os.mkdir` is skipped). -/
def make_backup_subdir (root : FSDir) (name : String) : FSEntry :=
  match lookupD root name with
  | none => .dir .nil
  | some e => e

/-- One iteration of the `__copy_to_subdir` loop for one source path, acting
on the current state of the group slot.  If the slot is a directory, the
source is merged under its basename.  If the slot is (still) a regular
file, `shutil.copy2(path, subdir)` overwrites that file itself, while the
directory branch dies in `os.mkdir` (`NotADirectoryError`).  A missing
source path dies in `shutil.copytree` (`FileNotFoundError`). -/
def copyOnePath (env : Env) (slot : FSEntry) (e : YElem) : Option FSEntry :=
  match env.readEntry (strOf e), slot with
  | some (.file c), .file _ => some (.file c)
  | some (.dir _), .file _ => none
  | some src, .dir s =>
    match mergeOpt src (lookupD s (env.basename (strOf e))) with
    | none => none
    | some r => some (.dir (setD s (env.basename (strOf e)) r))
  | none, _ => none

/-- Embedding of `BackupPaths.__copy_to_subdir`: fold the per-path copy over
the path list, in order. -/
def copy_to_subdir (env : Env) : FSEntry → List YElem → Option FSEntry
  | slot, [] => some slot
  | slot, e :: es =>
    match copyOnePath env slot e with
    | none => none
    | some s => copy_to_subdir env s es

/-- The copy of one named group into one target root: ensure the group slot
(`__make_backup_subdir`), copy every source path into it, and write the slot
back. -/
def copyGroupTo (env : Env) (root : FSDir) (name : String)
    (paths : List YElem) : Option FSDir :=
  match copy_to_subdir env (make_backup_subdir root name) paths with
  | none => none
  | some s => some (setD root name s)

/-- The inner loop of `make_backup` over `self.__elems_to_backup.items()`:
copy every group, in insertion order, into one target root. -/
def copyGroups (env : Env) : FSDir → List (String × YVal) → Option FSDir
  | root, [] => some root
  | root, (k, v) :: rest =>
    match iterVal v with
    | none => none
    | some ps =>
      match copyGroupTo env root k ps with
      | none => none
      | some root' => copyGroups env root' rest

/-- Lookup in the world of target roots. -/
def lookupA : List (String × FSDir) → String → Option FSDir
  | [], _ => none
  | (k, d) :: rest, k' => if k = k' then some d else lookupA rest k'

/-- Update in the world of target roots. -/
def setA : List (String × FSDir) → String → FSDir → List (String × FSDir)
  | [], k, v => [(k, v)]
  | (k₁, d) :: rest, k, v =>
    if k₁ = k then (k, v) :: rest else (k₁, d) :: setA rest k v

/-- The capacity test applied to one target during `make_backup`, as a
Boolean: free bytes of the target's volume do not strictly exceed the
stored size. -/
def insufficient (env : Env) (s : Nat) (t : YElem) : Bool :=
  decide (env.disk ((strOf t).take 2) ≤ s)

/-- The target loop of `make_backup`: for each target, compare the free
bytes of its volume with the stored backup size; if not strictly greater,
append the target to `failed_targets` and continue; otherwise copy every
group into it.  Any copy error propagates (`none`). -/
def mbGo (env : Env) (size : Nat) (elems : List (String × YVal)) :
    List YElem → List (String × FSDir) → Problems →
    Option (List (String × FSDir) × Problems)
  | [], w, pr => some (w, pr)
  | t :: ts, w, pr =>
    if env.disk ((strOf t).take 2) ≤ size then
      mbGo env size elems ts w
        { pr with failed_targets := pr.failed_targets ++ [t] }
    else
      match lookupA w (strOf t) with
      | none => none
      | some root =>
        match copyGroups env root elems with
        | none => none
        | some root' => mbGo env size elems ts (setA w (strOf t) root') pr

/-- Embedding of `BackupPaths.make_backup` on a world mapping each target
path to its directory tree. -/
def make_backup (env : Env) (bp : BackupPaths)
    (w : List (String × FSDir)) :
    Option (List (String × FSDir) × BackupPaths) :=
  match mbGo env bp.backupSize bp.elems bp.targets w bp.problems with
  | none => none
  | some (w', pr') => some (w', { bp with problems := pr' })

/-- All source paths of a group mapping, across groups, in order. -/
def flattenPaths (d : List (String × YVal)) : List YElem :=
  d.flatMap (fun kv => pathsOfVal kv.2)

/-- The byte length of the regular file at a path (`0` for anything else). -/
def fileLen (env : Env) (p : String) : Nat :=
  match env.readEntry p with
  | some (.file c) => c.length
  | _ => 0

/-- Two filesystem answers for a path agree in kind: both absent, both the
same regular file, or both directories (with possibly different contents). -/
def kindAgree : Option FSEntry → Option FSEntry → Bool
  | none, none => true
  | some (.file c₁), some (.file c₂) => c₁ == c₂
  | some (.dir _), some (.dir _) => true
  | _, _ => false

/-- The report after a validation call, whether it raised or returned. -/
def resultProblems : Except (VErr × Problems) Problems → Problems
  | .error (_, p) => p
  | .ok p => p

/-- One report extends another: each category list has only grown at the
end. -/
def reportExtends (pr pr' : Problems) : Prop :=
  (∃ t, pr'.nonstr_paths = pr.nonstr_paths ++ t) ∧
  (∃ t, pr'.nonabs_paths = pr.nonabs_paths ++ t) ∧
  (∃ t, pr'.nonexistent_paths = pr.nonexistent_paths ++ t) ∧
  (∃ t, pr'.failed_targets = pr.failed_targets ++ t)

/-- A fixed environment used to evaluate the embedding on concrete inputs:
a single regular file at `/a`, nothing else; absolute means starting with a
slash. -/
def envC : Env where
  isAbs := fun s => s.data.head? == some '/'
  readEntry := fun p => if p = "/a" then some (.file [1, 2, 3]) else none
  dirStatSize := fun _ => 4
  basename := fun p => String.mk ((p.data.splitOn '/').getLastD [])
  disk := fun _ => 100

/-- A directory holding one large file, used to exercise the size
accounting on directories. -/
def bigDir : FSEntry :=
  .dir (.cons "big" (.file [0, 0, 0, 0, 0, 0, 0, 0]) .nil)

/-- Variant of `envC` whose filesystem has a directory `/d` with a large
file inside it. -/
def envD1 : Env :=
  { envC with readEntry := fun p => if p = "/d" then some bigDir else none }

/-- Variant of `envC` whose filesystem has an empty directory `/d`. -/
def envD2 : Env :=
  { envC with readEntry := fun p => if p = "/d" then some (.dir .nil) else none }

/-- Concrete environment for exercising `make_backup`: volume `A:` has 1
free byte, every other volume 100; the filesystem has a single regular
file `/a` of 3 bytes. -/
def envM : Env where
  isAbs := fun s => s.data.head? == some '/'
  readEntry := fun p => if p = "/a" then some (.file [1, 2, 3]) else none
  dirStatSize := fun _ => 4
  basename := fun p => String.mk ((p.data.splitOn '/').getLastD [])
  disk := fun v => if v = "A:" then 1 else 100

/-- A configured state with two targets and one group of one file. -/
def bpM : BackupPaths :=
  { targets := [.str "A:dst", .str "B:dst"],
    elems := [("g", .vlist [.str "/a"])],
    backupSize := 3,
    problems := emptyProblems }

/-- A world with empty directories at both targets. -/
def wM : List (String × FSDir) := [("A:dst", .nil), ("B:dst", .nil)]

/-- The world after running `make_backup envM bpM` on `wM`. -/
def wOut : List (String × FSDir) :=
  [("A:dst", .nil),
   ("B:dst", .cons "g" (.dir (.cons "a" (.file [1, 2, 3]) .nil)) .nil)]

/-- The object state after running `make_backup envM bpM` on `wM`. -/
def bpOut : BackupPaths :=
  { bpM with problems :=
      { emptyProblems with failed_targets := [.str "A:dst"] } }

/-- Sequential merge of a list of source entries into one (optional)
destination slot; `none` is a failed copy, the inner `Option` is
presence of the slot. -/
def chainM : List FSEntry → Option FSEntry → Option (Option FSEntry)
  | [], v => some v
  | e :: es, v =>
    match mergeOpt e v with
    | none => none
    | some r => chainM es (some r)

/-- Sequential overlay of a list of source directories onto a destination
listing. -/
def ovChain : List FSDir → FSDir → Option FSDir
  | [], d => some d
  | a :: rest, d =>
    match overlay a d with
    | none => none
    | some r => ovChain rest r

/-- All values stored under one name across a list of directory listings,
in merge order. -/
def valsAt (k : String) (As : List FSDir) : List FSEntry :=
  As.flatMap (valuesAt k)

/-- Every value of the listing is a well-formed entry (duplicate names are
allowed: this is the shape of a group's source list, not of a directory). -/
def valsWF : FSDir → Bool
  | .nil => true
  | .cons _ e rest => WFe e && valsWF rest

/-- Well-formedness of an optional entry. -/
def WFopt : Option FSEntry → Bool
  | none => true
  | some e => WFe e

/-- Plain concatenation of two directory listings. -/
def dirApp : FSDir → FSDir → FSDir
  | .nil, b => b
  | .cons k e rest, b => .cons k e (dirApp rest b)

/-- The (basename, source entry) pairs a path list denotes on the source
filesystem; `none` when some path does not exist. -/
def pathPairs (env : Env) : List YElem → Option FSDir
  | [] => some .nil
  | e :: es =>
    match env.readEntry (strOf e) with
    | none => none
    | some src =>
      match pathPairs env es with
      | none => none
      | some r => some (.cons (env.basename (strOf e)) src r)

/-- Total size of a list of entries. -/
def listSizeE (es : List FSEntry) : Nat := (es.map sizeE).sum

/-- Total size of a list of directory listings. -/
def listSizeD (As : List FSDir) : Nat := (As.map sizeD).sum

/-- The destination tree produced by copying the group `g = [/a]` into an
empty root under `envC`. -/
def dOne : FSDir :=
  .cons "g" (.dir (.cons "a" (.file [1, 2, 3]) .nil)) .nil

deriving instance DecidableEq for Except

deriving instance DecidableEq for BackupPaths

/- ## Helper lemmas -/

theorem isEmpty_false_of_mem {α : Type} {a : α} {l : List α} (h : a ∈ l) :
    l.isEmpty = false := by
  cases l with
  | nil => cases h
  | cons b t => rfl

theorem reportExtends_refl (pr : Problems) : reportExtends pr pr :=
  ⟨⟨[], by simp⟩, ⟨[], by simp⟩, ⟨[], by simp⟩, ⟨[], by simp⟩⟩

theorem reportExtends_trans {p q r : Problems}
    (h₁ : reportExtends p q) (h₂ : reportExtends q r) : reportExtends p r := by
  obtain ⟨⟨a₁, e₁⟩, ⟨a₂, e₂⟩, ⟨a₃, e₃⟩, ⟨a₄, e₄⟩⟩ := h₁
  obtain ⟨⟨b₁, f₁⟩, ⟨b₂, f₂⟩, ⟨b₃, f₃⟩, ⟨b₄, f₄⟩⟩ := h₂
  exact ⟨⟨a₁ ++ b₁, by simp [f₁, e₁]⟩, ⟨a₂ ++ b₂, by simp [f₂, e₂]⟩,
         ⟨a₃ ++ b₃, by simp [f₃, e₃]⟩, ⟨a₄ ++ b₄, by simp [f₄, e₄]⟩⟩

theorem validate_reportExtends (env : Env) (pr : Problems) (v : YVal) :
    reportExtends pr (resultProblems (validate_path_list env pr v)) := by
  unfold validate_path_list
  split
  · exact reportExtends_refl pr
  · cases v with
    | vlist xs =>
      dsimp only
      split
      · exact ⟨⟨_, rfl⟩, ⟨[], by simp [resultProblems]⟩,
          ⟨[], by simp [resultProblems]⟩, ⟨[], by simp [resultProblems]⟩⟩
      · split
        · exact ⟨⟨_, rfl⟩, ⟨_, rfl⟩, ⟨_, rfl⟩, ⟨[], by simp [resultProblems]⟩⟩
        · split
          · exact ⟨⟨_, rfl⟩, ⟨_, rfl⟩, ⟨_, rfl⟩,
              ⟨[], by simp [resultProblems]⟩⟩
          · exact ⟨⟨_, rfl⟩, ⟨_, rfl⟩, ⟨_, rfl⟩,
              ⟨[], by simp [resultProblems]⟩⟩
    | vstr s => exact reportExtends_refl pr
    | vdict ks => exact reportExtends_refl pr
    | vnone => exact reportExtends_refl pr

theorem validateAll_reportExtends (env : Env) :
    ∀ (vs : List YVal) (pr : Problems),
      reportExtends pr (resultProblems (validateAll env pr vs))
  | [], pr => reportExtends_refl pr
  | v :: vs, pr => by
    unfold validateAll
    rcases hv : validate_path_list env pr v with e | pr'
    · have := validate_reportExtends env pr v
      rwa [hv] at this
    · have h₁ := validate_reportExtends env pr v
      rw [hv] at h₁
      exact reportExtends_trans h₁ (validateAll_reportExtends env vs pr')

theorem calc_backup_size_eq_sum (env : Env) (d : List (String × YVal)) :
    calc_backup_size env d =
      ((flattenPaths d).map (fun e => statSize env (strOf e))).sum := by
  induction d with
  | nil => rfl
  | cons kv rest ih =>
    simp only [calc_backup_size, flattenPaths, groupSize, List.flatMap_cons,
      List.map_cons, List.map_append, List.sum_cons, List.sum_append] at *
    simp [ih]

/- ## Claim theorems -/

/-- C2: the capacity check deems a destination sufficient iff its free
bytes strictly exceed the required bytes; equality is insufficient, and
`required = free - 1` is sufficient; with `free = required` a single-target
run records the target as failed and performs no copy (the world is
unchanged). -/
theorem capacity_boundary (env : Env) (root : String) (req : Nat) :
    (hasCapacity env root req = true ↔ req < calc_free_memory env root) ∧
    (calc_free_memory env root = req → hasCapacity env root req = false) ∧
    (0 < calc_free_memory env root → req = calc_free_memory env root - 1 →
      hasCapacity env root req = true) ∧
    (∀ (bp : BackupPaths) (w : List (String × FSDir)) (t : YElem),
      bp.targets = [t] → bp.backupSize = req →
      calc_free_memory env (strOf t) = req →
      make_backup env bp w =
        some (w, { bp with problems := { bp.problems with
          failed_targets := bp.problems.failed_targets ++ [t] } })) := by
  refine ⟨?_, ?_, ?_, ?_⟩
  · simp [hasCapacity, Nat.not_le]
  · intro h; simp [hasCapacity, h]
  · intro h0 hr; simp only [hasCapacity, hr, Bool.not_eq_true']
    simp only [decide_eq_false_iff_not, Nat.not_le]
    omega
  · intro bp w t ht hs hf
    have hd : env.disk ((strOf t).take 2) ≤ bp.backupSize := by
      unfold calc_free_memory at hf; omega
    simp [make_backup, ht, mbGo, hd]

/-- C2 witness: a concrete boundary instance. -/
theorem capacity_boundary_witness :
    hasCapacity envC "X:" 100 = false ∧ hasCapacity envC "X:" 99 = true := by
  have h := capacity_boundary envC "X:" 100
  have h' := capacity_boundary envC "X:" 99
  exact ⟨h.2.1 (by decide), h'.2.2.1 (by decide) (by decide)⟩

/-- C4: over a group mapping whose entries are all regular files the
computed size is the exact sum of the files' byte lengths, and the total
only depends on the multiset of paths, not on the grouping or ordering. -/
theorem size_exact_for_files (env : Env) :
    (∀ d : List (String × YVal),
      (∀ e ∈ flattenPaths d, ∃ c, env.readEntry (strOf e) = some (.file c)) →
      calc_backup_size env d =
        ((flattenPaths d).map (fun e => fileLen env (strOf e))).sum) ∧
    (∀ d₁ d₂ : List (String × YVal),
      (flattenPaths d₁).Perm (flattenPaths d₂) →
      calc_backup_size env d₁ = calc_backup_size env d₂) := by
  constructor
  · intro d hall
    rw [calc_backup_size_eq_sum]
    congr 1
    apply List.map_congr_left
    intro e he
    obtain ⟨c, hc⟩ := hall e he
    simp [statSize, fileLen, hc]
  · intro d₁ d₂ hperm
    rw [calc_backup_size_eq_sum, calc_backup_size_eq_sum]
    exact (hperm.map _).sum_eq

/-- C4 witness: two groupings of the same two files yield the same exact
total. -/
theorem size_exact_for_files_witness :
    calc_backup_size envC [("g", .vlist [.str "/a", .str "/a"])] = 6 ∧
    calc_backup_size envC [("g", .vlist [.str "/a", .str "/a"])] =
      calc_backup_size envC
        [("h", .vlist [.str "/a"]), ("g", .vlist [.str "/a"])] := by
  constructor
  · have h := (size_exact_for_files envC).1
      [("g", .vlist [.str "/a", .str "/a"])]
      (by intro e he; fin_cases he <;> exact ⟨[1, 2, 3], rfl⟩)
    rw [h]; decide
  · exact (size_exact_for_files envC).2 _ _ (by decide)

/-- C6 counterexample: `None` is not a list, yet validation raises the
empty-configuration error (`NoBackupError`), not the not-a-list error
(`YamlListError`): the truthiness check runs first. -/
theorem notalist_counterexample :
    validate_path_list envC emptyProblems .vnone =
      .error (.noBackup, emptyProblems) ∧
    VErr.noBackup ≠ VErr.yamlList := by
  constructor
  · decide
  · decide

/-- C6 amended: every truthy non-list configuration value (for example a
non-empty string or a non-empty dict) fails with the not-a-list error
(`YamlListError`); falsy values such as `None` fail with the
empty-configuration error (`NoBackupError`) instead. -/
theorem notalist_amended (env : Env) (pr : Problems) (v : YVal)
    (ht : truthy v = true) (hl : isListVal v = false) :
    validate_path_list env pr v = .error (.yamlList, pr) := by
  unfold validate_path_list
  rw [ht]
  cases v with
  | vlist xs => simp [isListVal] at hl
  | vstr s => rfl
  | vdict ks => rfl
  | vnone => simp [truthy] at ht

/-- C6 amended witness: a non-empty string value. -/
theorem notalist_amended_witness :
    validate_path_list envC emptyProblems (.vstr "x") =
      .error (.yamlList, emptyProblems) :=
  notalist_amended envC emptyProblems (.vstr "x") (by decide) (by decide)

/-- C7: the size computation sums only the top-level stat size of each
listed path — it never descends into directories.  Hence it is invariant
under any change of directory contents that keeps every path's kind, every
file's bytes and every directory's own stat size. -/
theorem size_not_recursive (env₁ env₂ : Env) (d : List (String × YVal)) :
    (calc_backup_size env₁ d =
      ((flattenPaths d).map (fun e => statSize env₁ (strOf e))).sum) ∧
    ((∀ p, kindAgree (env₁.readEntry p) (env₂.readEntry p) = true) →
     (∀ p, env₁.dirStatSize p = env₂.dirStatSize p) →
     calc_backup_size env₁ d = calc_backup_size env₂ d) := by
  refine ⟨calc_backup_size_eq_sum env₁ d, ?_⟩
  intro hk hs
  rw [calc_backup_size_eq_sum, calc_backup_size_eq_sum]
  congr 1
  apply List.map_congr_left
  intro e _
  have h := hk (strOf e)
  unfold statSize
  rcases h₁ : env₁.readEntry (strOf e) with _ | c₁ | d₁ <;>
    rcases h₂ : env₂.readEntry (strOf e) with _ | c₂ | d₂ <;>
      simp_all [kindAgree]

/-- C7 witness: replacing a directory's entire contents with nothing leaves
the computed backup size unchanged (only the stat size of the directory
itself is counted). -/
theorem size_not_recursive_witness :
    calc_backup_size envD1 [("g", .vlist [.str "/d"])] =
    calc_backup_size envD2 [("g", .vlist [.str "/d"])] := by
  apply (size_not_recursive _ _ _).2
  · intro p
    by_cases h : p = "/d" <;> simp [envD1, envD2, h, kindAgree, bigDir]
  · intro p; rfl

/-- C5: validation checks run in the order string-type, absoluteness,
existence, each as a complete pass over the whole list: a list holding a
non-string element (and some other violation) fails with the non-string
error carrying every non-string offender, and a list of strings holding
both a non-absolute and a non-existent element fails with the non-absolute
error carrying every non-absolute offender. -/
theorem validate_check_ordering :
    (∀ (env : Env) (pr : Problems) (xs : List YElem),
      xs ≠ [] →
      (∃ e ∈ xs, isStrElem e = false) →
      (∃ e ∈ xs, isStrElem e = true ∧
        (env.isAbs (strOf e) = false ∨ pathExists env (strOf e) = false)) →
      ∃ pr', validate_path_list env pr (.vlist xs) =
          .error (.typeError, pr') ∧
        ∀ e ∈ xs, isStrElem e = false → e ∈ pr'.nonstr_paths) ∧
    (∀ (env : Env) (pr : Problems) (xs : List YElem),
      pr.nonstr_paths = [] →
      xs ≠ [] →
      (∀ e ∈ xs, isStrElem e = true) →
      (∃ e ∈ xs, env.isAbs (strOf e) = false) →
      (∃ e ∈ xs, pathExists env (strOf e) = false) →
      ∃ pr', validate_path_list env pr (.vlist xs) =
          .error (.valueError, pr') ∧
        ∀ e ∈ xs, env.isAbs (strOf e) = false →
          strOf e ∈ pr'.nonabs_paths) := by
  constructor
  · rintro env pr xs hne ⟨e, he, hns⟩ _hmix
    unfold validate_path_list
    rw [if_neg (by simp [truthy, hne])]
    dsimp only
    have hfil : e ∈ xs.filter (fun e => !isStrElem e) :=
      List.mem_filter.2 ⟨he, by simp [hns]⟩
    have hmem : e ∈ pr.nonstr_paths ++ xs.filter (fun e => !isStrElem e) :=
      List.mem_append.2 (Or.inr hfil)
    rw [if_pos (by rw [isEmpty_false_of_mem hmem]; rfl)]
    refine ⟨_, rfl, ?_⟩
    intro e' he' hns'
    exact List.mem_append.2 (Or.inr (List.mem_filter.2 ⟨he', by simp [hns']⟩))
  · rintro env pr xs hfresh hne hall ⟨e, he, hab⟩ _hex
    unfold validate_path_list
    rw [if_neg (by simp [truthy, hne])]
    dsimp only
    have hfil0 : xs.filter (fun e => !isStrElem e) = [] :=
      List.filter_eq_nil_iff.2 (fun a ha => by simp [hall a ha])
    rw [if_neg (by simp [hfil0, hfresh])]
    have hfil : e ∈ xs.filter (fun e => !env.isAbs (strOf e)) :=
      List.mem_filter.2 ⟨he, by simp [hab]⟩
    have hmem : strOf e ∈ pr.nonabs_paths ++
        (xs.filter (fun e => !env.isAbs (strOf e))).map strOf :=
      List.mem_append.2 (Or.inr (List.mem_map_of_mem strOf hfil))
    rw [if_pos (by rw [isEmpty_false_of_mem hmem]; rfl)]
    refine ⟨_, rfl, ?_⟩
    intro e' he' hab'
    exact List.mem_append.2 (Or.inr (List.mem_map_of_mem strOf
      (List.mem_filter.2 ⟨he', by simp [hab']⟩)))

/-- C5 witness: both orderings observed on concrete lists. -/
theorem validate_check_ordering_witness :
    (∃ pr', validate_path_list envC emptyProblems
        (.vlist [.nonstr 7, .str "rel"]) = .error (.typeError, pr') ∧
      YElem.nonstr 7 ∈ pr'.nonstr_paths) ∧
    (∃ pr', validate_path_list envC emptyProblems
        (.vlist [.str "rel", .str "/a"]) = .error (.valueError, pr') ∧
      "rel" ∈ pr'.nonabs_paths) := by
  constructor
  · obtain ⟨pr', h1, h2⟩ := validate_check_ordering.1 envC emptyProblems
      [.nonstr 7, .str "rel"] (by decide)
      ⟨.nonstr 7, by decide, by decide⟩
      ⟨.str "rel", by decide, by decide, Or.inl (by decide)⟩
    exact ⟨pr', h1, h2 (.nonstr 7) (by decide) (by decide)⟩
  · obtain ⟨pr', h1, h2⟩ := validate_check_ordering.2 envC emptyProblems
      [.str "rel", .str "/a"] rfl (by decide)
      (by decide)
      ⟨.str "rel", by decide, by decide⟩
      ⟨.str "rel", by decide, by decide⟩
    exact ⟨pr', h1, h2 (.str "rel") (by decide) (by decide)⟩

/-- C3 counterexample: the single-element list `["rel"]` is a non-empty
list of string paths containing a non-existent path, yet validation fails
with the non-absolute error (`ValueError`), not the nonexistent-element
error (`FileNotFoundError`), because the path is also non-absolute and the
absoluteness check raises first. -/
theorem nonexistent_offenders_counterexample :
    validate_path_list envC emptyProblems (.vlist [.str "rel"]) =
      .error (.valueError,
        { emptyProblems with nonabs_paths := ["rel"],
                             nonexistent_paths := ["rel"] }) ∧
    VErr.valueError ≠ VErr.fileNotFound := by
  exact ⟨by decide, by decide⟩

/-- C3 amended: for every non-empty list of string paths that are all
absolute and contain at least one non-existent path, validation (from a
report with no earlier string or absoluteness offenders) fails with the
nonexistent-element error, and the report then holds every non-existent
path of the list, not merely the first. -/
theorem nonexistent_offenders_amended (env : Env) (pr : Problems)
    (xs : List YElem)
    (hfresh1 : pr.nonstr_paths = []) (hfresh2 : pr.nonabs_paths = [])
    (hne : xs ≠ [])
    (hall : ∀ e ∈ xs, isStrElem e = true)
    (habs : ∀ e ∈ xs, env.isAbs (strOf e) = true)
    (hex : ∃ e ∈ xs, pathExists env (strOf e) = false) :
    ∃ pr', validate_path_list env pr (.vlist xs) =
        .error (.fileNotFound, pr') ∧
      ∀ e ∈ xs, pathExists env (strOf e) = false →
        strOf e ∈ pr'.nonexistent_paths := by
  obtain ⟨e, he, hnx⟩ := hex
  unfold validate_path_list
  rw [if_neg (by simp [truthy, hne])]
  dsimp only
  have hfil0 : xs.filter (fun e => !isStrElem e) = [] :=
    List.filter_eq_nil_iff.2 (fun a ha => by simp [hall a ha])
  rw [if_neg (by simp [hfil0, hfresh1])]
  have hfil1 : xs.filter (fun e => !env.isAbs (strOf e)) = [] :=
    List.filter_eq_nil_iff.2 (fun a ha => by simp [habs a ha])
  rw [if_neg (by simp [hfil1, hfresh2])]
  have hfil : e ∈ xs.filter (fun e => !pathExists env (strOf e)) :=
    List.mem_filter.2 ⟨he, by simp [hnx]⟩
  have hmem : strOf e ∈ pr.nonexistent_paths ++
      (xs.filter (fun e => !pathExists env (strOf e))).map strOf :=
    List.mem_append.2 (Or.inr (List.mem_map_of_mem strOf hfil))
  rw [if_pos (by rw [isEmpty_false_of_mem hmem]; rfl)]
  refine ⟨_, rfl, ?_⟩
  intro e' he' hnx'
  exact List.mem_append.2 (Or.inr (List.mem_map_of_mem strOf
    (List.mem_filter.2 ⟨he', by simp [hnx']⟩)))

/-- C3 amended witness: both non-existent paths of a three-element list are
reported, not only the first. -/
theorem nonexistent_offenders_amended_witness :
    ∃ pr', validate_path_list envC emptyProblems
        (.vlist [.str "/a", .str "/m1", .str "/m2"]) =
        .error (.fileNotFound, pr') ∧
      "/m1" ∈ pr'.nonexistent_paths ∧ "/m2" ∈ pr'.nonexistent_paths := by
  obtain ⟨pr', h1, h2⟩ := nonexistent_offenders_amended envC emptyProblems
    [.str "/a", .str "/m1", .str "/m2"] rfl rfl (by decide)
    (by decide) (by decide)
    ⟨.str "/m1", by decide, by decide⟩
  exact ⟨pr', h1, h2 (.str "/m1") (by decide) (by decide),
    h2 (.str "/m2") (by decide) (by decide)⟩

/-- C10: whenever a setter raises a validation error, the stored target
list, source-group mapping and backup size are left unchanged; the problem
report has only grown. -/
theorem setters_atomic_on_failure :
    (∀ (env : Env) (bp : BackupPaths) (v : YVal) (e : VErr)
        (bp' : BackupPaths),
      target_set env bp v = .error (e, bp') →
      bp'.targets = bp.targets ∧ bp'.elems = bp.elems ∧
      bp'.backupSize = bp.backupSize ∧
      reportExtends bp.problems bp'.problems) ∧
    (∀ (env : Env) (bp : BackupPaths) (d : List (String × YVal)) (e : VErr)
        (bp' : BackupPaths),
      paths_set env bp d = .error (e, bp') →
      bp'.targets = bp.targets ∧ bp'.elems = bp.elems ∧
      bp'.backupSize = bp.backupSize ∧
      reportExtends bp.problems bp'.problems) := by
  constructor
  · intro env bp v e bp' h
    unfold target_set at h
    rcases hv : validate_path_list env bp.problems v with ⟨e₁, pr₁⟩ | pr₁ <;>
      rw [hv] at h
    · cases h
      refine ⟨rfl, rfl, rfl, ?_⟩
      have := validate_reportExtends env bp.problems v
      rwa [hv] at this
    · cases h
  · intro env bp d e bp' h
    unfold paths_set at h
    split at h
    · cases h; exact ⟨rfl, rfl, rfl, reportExtends_refl _⟩
    · rcases hv : validateAll env bp.problems (d.map (·.2)) with ⟨e₁, pr₁⟩ | pr₁ <;>
        rw [hv] at h
      · cases h
        refine ⟨rfl, rfl, rfl, ?_⟩
        have := validateAll_reportExtends env (d.map (·.2)) bp.problems
        rwa [hv] at this
      · cases h

/-- C10 witness: a failing `paths` assignment (non-existent path) leaves a
configured state untouched. -/
theorem setters_atomic_on_failure_witness :
    ∃ bp',
      paths_set envC
        { newBackupPaths with targets := [.str "/a"], backupSize := 3 }
        [("g", .vlist [.str "/missing"])] = .error (.fileNotFound, bp') ∧
      bp'.targets = [YElem.str "/a"] ∧ bp'.elems = [] ∧ bp'.backupSize = 3 := by
  have hEq :
      paths_set envC
        { newBackupPaths with targets := [.str "/a"], backupSize := 3 }
        [("g", .vlist [.str "/missing"])] =
      .error (.fileNotFound,
        { targets := [.str "/a"], elems := [], backupSize := 3,
          problems := { nonstr_paths := [], nonabs_paths := [],
                        nonexistent_paths := ["/missing"],
                        failed_targets := [] } }) := by decide
  have h := setters_atomic_on_failure.2 envC _ _ _ _ hEq
  exact ⟨_, hEq, h.1, h.2.1, h.2.2.1⟩

theorem lookupA_setA_self :
    ∀ (w : List (String × FSDir)) (k : String) (v : FSDir),
      lookupA (setA w k v) k = some v := by
  intro w k v
  induction w with
  | nil => simp [setA, lookupA]
  | cons p rest ih =>
    obtain ⟨k₁, d⟩ := p
    by_cases h : k₁ = k
    · simp [setA, h, lookupA]
    · simp [setA, h, lookupA, ih]

theorem lookupA_setA_ne {k q : String} (hne : k ≠ q) :
    ∀ (w : List (String × FSDir)) (v : FSDir),
      lookupA (setA w k v) q = lookupA w q := by
  intro w v
  induction w with
  | nil => simp [setA, lookupA, hne]
  | cons p rest ih =>
    obtain ⟨k₁, d⟩ := p
    by_cases h : k₁ = k
    · subst h; simp [setA, lookupA, hne, ih]
    · simp [setA, h, lookupA, ih]

theorem mbGo_problems (env : Env) (s : Nat) (el : List (String × YVal)) :
    ∀ (ts : List YElem) (w : List (String × FSDir)) (pr : Problems)
      (w' : List (String × FSDir)) (pr' : Problems),
      mbGo env s el ts w pr = some (w', pr') →
      pr' = { pr with
        failed_targets := pr.failed_targets ++ ts.filter (insufficient env s) } := by
  intro ts
  induction ts with
  | nil =>
    intro w pr w' pr' h
    unfold mbGo at h
    cases h
    simp
  | cons t rest ih =>
    intro w pr w' pr' h
    unfold mbGo at h
    split at h
    next hc =>
      have h₁ := ih _ _ _ _ h
      rw [h₁]
      simp [List.filter_cons, insufficient, decide_eq_true hc]
    next hc =>
      split at h
      · cases h
      · split at h
        · cases h
        · have h₁ := ih _ _ _ _ h
          rw [h₁]
          simp [List.filter_cons, insufficient, decide_eq_false hc]

theorem mbGo_untouched (env : Env) (s : Nat) (el : List (String × YVal)) :
    ∀ (ts : List YElem) (w : List (String × FSDir)) (pr : Problems)
      (w' : List (String × FSDir)) (pr' : Problems),
      mbGo env s el ts w pr = some (w', pr') →
      ∀ q : String, env.disk (q.take 2) ≤ s →
      lookupA w' q = lookupA w q := by
  intro ts
  induction ts with
  | nil =>
    intro w pr w' pr' h q _
    unfold mbGo at h
    cases h
    rfl
  | cons t rest ih =>
    intro w pr w' pr' h q hq
    unfold mbGo at h
    split at h
    next hc => exact ih _ _ _ _ h q hq
    next hc =>
      split at h
      · cases h
      · split at h
        · cases h
        · have hne : strOf t ≠ q := by
            intro he
            rw [he] at hc
            omega
          rw [ih _ _ _ _ h q hq, lookupA_setA_ne hne]

theorem mbGo_frame_notmem (env : Env) (s : Nat) (el : List (String × YVal)) :
    ∀ (ts : List YElem) (w : List (String × FSDir)) (pr : Problems)
      (w' : List (String × FSDir)) (pr' : Problems),
      mbGo env s el ts w pr = some (w', pr') →
      ∀ q : String, q ∉ ts.map strOf →
      lookupA w' q = lookupA w q := by
  intro ts
  induction ts with
  | nil =>
    intro w pr w' pr' h q _
    unfold mbGo at h
    cases h
    rfl
  | cons t rest ih =>
    intro w pr w' pr' h q hq
    have hq₁ : strOf t ≠ q := by
      intro he; exact hq (by simp [← he])
    have hq₂ : q ∉ rest.map strOf := by
      intro hmem; exact hq (by simp [hmem])
    unfold mbGo at h
    split at h
    next hc => exact ih _ _ _ _ h q hq₂
    next hc =>
      split at h
      · cases h
      · split at h
        · cases h
        · rw [ih _ _ _ _ h q hq₂, lookupA_setA_ne hq₁]

theorem mbGo_copied (env : Env) (s : Nat) (el : List (String × YVal)) :
    ∀ (ts : List YElem) (w : List (String × FSDir)) (pr : Problems)
      (w' : List (String × FSDir)) (pr' : Problems),
      mbGo env s el ts w pr = some (w', pr') →
      (ts.map strOf).Nodup →
      ∀ t ∈ ts, s < env.disk ((strOf t).take 2) →
      ∃ b₀ b₁, lookupA w (strOf t) = some b₀ ∧
        copyGroups env b₀ el = some b₁ ∧
        lookupA w' (strOf t) = some b₁ := by
  intro ts
  induction ts with
  | nil => intro w pr w' pr' _ _ t ht; cases ht
  | cons hd rest ih =>
    intro w pr w' pr' h hnd t ht hcap
    have hnd' : (rest.map strOf).Nodup := by
      simpa using hnd.of_cons
    rcases List.mem_cons.1 ht with rfl | htr
    · unfold mbGo at h
      split at h
      next hc => omega
      next hc =>
        split at h
        next hl => cases h
        next root hl =>
          split at h
          next hcg => cases h
          next root' hcg =>
            refine ⟨root, root', hl, hcg, ?_⟩
            have hnotin : strOf t ∉ rest.map strOf := by
              simpa using (List.nodup_cons.1 hnd).1
            rw [mbGo_frame_notmem env s el _ _ _ _ _ h _ hnotin,
              lookupA_setA_self]
    · have hne : strOf hd ≠ strOf t := by
        intro he
        exact (List.nodup_cons.1 hnd).1 (he ▸ List.mem_map_of_mem strOf htr)
      unfold mbGo at h
      split at h
      next hc => exact ih _ _ _ _ h hnd' t htr hcap
      next hc =>
        split at h
        next hl => cases h
        next root hl =>
          split at h
          next hcg => cases h
          next root' hcg =>
            obtain ⟨b₀, b₁, h₀, h₁, h₂⟩ := ih _ _ _ _ h hnd' t htr hcap
            rw [lookupA_setA_ne hne] at h₀
            exact ⟨b₀, b₁, h₀, h₁, h₂⟩

theorem failure_isolation (env : Env) (bp : BackupPaths)
    (w : List (String × FSDir)) (A B : YElem)
    (w' : List (String × FSDir)) (bp' : BackupPaths)
    (hnd : (bp.targets.map strOf).Nodup)
    (hA : A ∈ bp.targets) (hB : B ∈ bp.targets)
    (hAc : hasCapacity env (strOf A) bp.backupSize = false)
    (hBc : hasCapacity env (strOf B) bp.backupSize = true)
    (hrun : make_backup env bp w = some (w', bp')) :
    A ∈ bp'.problems.failed_targets ∧
    lookupA w' (strOf A) = lookupA w (strOf A) ∧
    ∃ b₀ b₁, lookupA w (strOf B) = some b₀ ∧
      copyGroups env b₀ bp.elems = some b₁ ∧
      lookupA w' (strOf B) = some b₁ := by
  have hAle : env.disk ((strOf A).take 2) ≤ bp.backupSize := by
    simpa [hasCapacity, calc_free_memory] using hAc
  have hBgt : bp.backupSize < env.disk ((strOf B).take 2) := by
    simpa [hasCapacity, calc_free_memory, Nat.not_le] using hBc
  unfold make_backup at hrun
  rcases hgo : mbGo env bp.backupSize bp.elems bp.targets w bp.problems with
    _ | p <;> rw [hgo] at hrun
  · cases hrun
  · obtain ⟨w₁, pr₁⟩ := p
    cases hrun
    refine ⟨?_, ?_, ?_⟩
    · rw [mbGo_problems env _ _ _ _ _ _ _ hgo]
      exact List.mem_append.2 (Or.inr (List.mem_filter.2
        ⟨hA, decide_eq_true hAle⟩))
    · exact mbGo_untouched env _ _ _ _ _ _ _ hgo _ hAle
    · exact mbGo_copied env _ _ _ _ _ _ _ hgo hnd B hB hBgt

/-- C1 witness: the concrete two-target run. -/
theorem failure_isolation_witness :
    ∃ w' bp', make_backup envM bpM wM = some (w', bp') ∧
      YElem.str "A:dst" ∈ bp'.problems.failed_targets ∧
      lookupA w' "A:dst" = lookupA wM "A:dst" ∧
      ∃ b₀ b₁, lookupA wM "B:dst" = some b₀ ∧
        copyGroups envM b₀ bpM.elems = some b₁ ∧
        lookupA w' "B:dst" = some b₁ := by
  have hrun : make_backup envM bpM wM = some (wOut, bpOut) := rfl
  have h := failure_isolation envM bpM wM (.str "A:dst") (.str "B:dst")
    wOut bpOut (by decide) (by decide) (by decide) (by decide) (by decide)
    hrun
  exact ⟨wOut, bpOut, hrun, h.1, h.2.1, h.2.2⟩

/-- C8: the required capacity is computed once, at assignment of `paths`,
from the very group mapping that is stored and later copied; a completed
`make_backup` run leaves the stored backup size, group mapping and target
list unchanged, and every per-target capacity check compares the free
bytes against that same stored size. -/
theorem size_fixed_at_assignment (env : Env) (bp : BackupPaths)
    (d : List (String × YVal)) (bp₁ : BackupPaths)
    (w w' : List (String × FSDir)) (bp₂ : BackupPaths)
    (hset : paths_set env bp d = .ok bp₁)
    (hrun : make_backup env bp₁ w = some (w', bp₂)) :
    bp₁.backupSize = calc_backup_size env d ∧ bp₁.elems = d ∧
    bp₂.backupSize = bp₁.backupSize ∧ bp₂.elems = bp₁.elems ∧
    bp₂.targets = bp₁.targets ∧
    bp₂.problems.failed_targets = bp₁.problems.failed_targets ++
      bp₁.targets.filter (insufficient env bp₁.backupSize) := by
  unfold paths_set at hset
  split at hset
  · cases hset
  · rcases hv : validateAll env bp.problems (d.map (·.2)) with e | pr₁ <;>
      rw [hv] at hset
    · cases hset
    · cases hset
      unfold make_backup at hrun
      rcases hgo : mbGo env _ _ _ w _ with _ | p <;> rw [hgo] at hrun
      · cases hrun
      · obtain ⟨w₁, prx⟩ := p
        cases hrun
        refine ⟨rfl, rfl, rfl, rfl, rfl, ?_⟩
        rw [mbGo_problems env _ _ _ _ _ _ _ hgo]

/-- C8 witness: the concrete configured run. -/
theorem size_fixed_at_assignment_witness :
    ∃ bp₁ w' bp₂,
      paths_set envM { newBackupPaths with targets := bpM.targets }
        [("g", .vlist [.str "/a"])] = .ok bp₁ ∧
      make_backup envM bp₁ wM = some (w', bp₂) ∧
      bp₁.backupSize = calc_backup_size envM [("g", .vlist [.str "/a"])] ∧
      bp₂.backupSize = bp₁.backupSize ∧ bp₂.elems = bp₁.elems := by
  have hset : paths_set envM { newBackupPaths with targets := bpM.targets }
      [("g", .vlist [.str "/a"])] = .ok bpM := rfl
  have hrun : make_backup envM bpM wM = some (wOut, bpOut) := rfl
  have h := size_fixed_at_assignment envM _ _ _ _ _ _ hset hrun
  exact ⟨bpM, wOut, bpOut, hset, hrun, h.1, h.2.2.1, h.2.2.2.1⟩

theorem lookupD_setD_self : ∀ (D : FSDir) (k : String) (v : FSEntry),
    lookupD (setD D k v) k = some v
  | .nil, k, v => by simp [setD, lookupD]
  | .cons k₁ e rest, k, v => by
    by_cases h : k₁ = k
    · simp [setD, h, lookupD]
    · simp [setD, h, lookupD, lookupD_setD_self rest k v]

theorem lookupD_setD_ne : ∀ (D : FSDir) {k q : String} (v : FSEntry),
    k ≠ q → lookupD (setD D k v) q = lookupD D q
  | .nil, k, q, v, hne => by simp [setD, lookupD, hne]
  | .cons k₁ e rest, k, q, v, hne => by
    by_cases h : k₁ = k
    · subst h; simp [setD, lookupD, hne]
    · simp [setD, h, lookupD, lookupD_setD_ne rest v hne]

theorem setD_lookup_id : ∀ (D : FSDir) {k : String} {v : FSEntry},
    lookupD D k = some v → setD D k v = D
  | .nil, k, v, h => by simp [lookupD] at h
  | .cons k₁ e rest, k, v, h => by
    by_cases hk : k₁ = k
    · subst hk
      have h' : e = v := by simpa [lookupD] using h
      subst h'
      simp [setD]
    · simp [lookupD, hk] at h
      simp [setD, hk, setD_lookup_id rest h]

theorem mem_keysD_setD_of_mem : ∀ (D : FSDir) {q : String} (k : String)
    (v : FSEntry), q ∈ keysD D → q ∈ keysD (setD D k v)
  | .nil, q, k, v, h => by simp [keysD] at h
  | .cons k₁ e rest, q, k, v, h => by
    by_cases hk : k₁ = k
    · subst hk
      simp [keysD] at h
      rcases h with rfl | h
      · simp [setD, keysD]
      · simp [setD, keysD, h]
    · simp [keysD] at h
      rcases h with rfl | h
      · simp [setD, hk, keysD]
      · simp [setD, hk, keysD, mem_keysD_setD_of_mem rest k v h]

theorem mem_keysD_setD_self : ∀ (D : FSDir) (k : String) (v : FSEntry),
    k ∈ keysD (setD D k v)
  | .nil, k, v => by simp [setD, keysD]
  | .cons k₁ e rest, k, v => by
    by_cases hk : k₁ = k
    · simp [setD, hk, keysD]
    · simp [setD, hk, keysD, mem_keysD_setD_self rest k v]

theorem keysD_setD_of_mem : ∀ (D : FSDir) {k : String} (v : FSEntry),
    k ∈ keysD D → keysD (setD D k v) = keysD D
  | .nil, k, v, h => by simp [keysD] at h
  | .cons k₁ e rest, k, v, h => by
    by_cases hk : k₁ = k
    · subst hk; simp [setD, keysD]
    · simp [keysD, Ne.symm hk] at h
      simp [setD, hk, keysD, keysD_setD_of_mem rest v h]

theorem keysD_setD_of_not_mem : ∀ (D : FSDir) {k : String} (v : FSEntry),
    k ∉ keysD D → keysD (setD D k v) = keysD D ++ [k]
  | .nil, k, v, h => by simp [setD, keysD]
  | .cons k₁ e rest, k, v, h => by
    have h₁ : k₁ ≠ k := by
      intro he; exact h (by simp [keysD, he])
    have h₂ : k ∉ keysD rest := by
      intro hm; exact h (by simp [keysD, hm])
    simp [setD, h₁, keysD, keysD_setD_of_not_mem rest v h₂]

theorem lookupD_eq_none_of_not_mem : ∀ (D : FSDir) {k : String},
    k ∉ keysD D → lookupD D k = none
  | .nil, k, _ => rfl
  | .cons k₁ e rest, k, h => by
    have h₁ : k₁ ≠ k := by
      intro he; exact h (by simp [keysD, he])
    have h₂ : k ∉ keysD rest := by
      intro hm; exact h (by simp [keysD, hm])
    simp [lookupD, h₁, lookupD_eq_none_of_not_mem rest h₂]

theorem mem_of_lookupD_some : ∀ (D : FSDir) {k : String} {e : FSEntry},
    lookupD D k = some e → k ∈ keysD D
  | .nil, k, e, h => by simp [lookupD] at h
  | .cons k₁ e₁ rest, k, e, h => by
    by_cases hk : k₁ = k
    · simp [keysD, hk]
    · simp [lookupD, hk] at h
      simp [keysD, mem_of_lookupD_some rest h]

theorem WFd_nodup_keys : ∀ (D : FSDir), WFd D = true → (keysD D).Nodup
  | .nil, _ => by simp [keysD]
  | .cons k e rest, h => by
    simp [WFd] at h
    obtain ⟨⟨hk, _⟩, hrest⟩ := h
    simp [keysD, List.nodup_cons]
    exact ⟨by simpa using hk, WFd_nodup_keys rest hrest⟩

theorem valsWF_of_WFd : ∀ (D : FSDir), WFd D = true → valsWF D = true
  | .nil, _ => rfl
  | .cons k e rest, h => by
    simp [WFd] at h
    simp [valsWF, h.1.2, valsWF_of_WFd rest h.2]

theorem lookupD_WF : ∀ (D : FSDir) {k : String} {e : FSEntry},
    WFd D = true → lookupD D k = some e → WFe e = true
  | .nil, k, e, _, h => by simp [lookupD] at h
  | .cons k₁ e₁ rest, k, e, hwf, h => by
    simp [WFd] at hwf
    by_cases hk : k₁ = k
    · simp [lookupD, hk] at h
      exact h ▸ hwf.1.2
    · simp [lookupD, hk] at h
      exact lookupD_WF rest hwf.2 h

theorem WFd_setD : ∀ (D : FSDir) (k : String) (v : FSEntry),
    WFd D = true → WFe v = true → WFd (setD D k v) = true
  | .nil, k, v, _, hv => by simp [setD, WFd, keysD, hv]
  | .cons k₁ e rest, k, v, hwf, hv => by
    simp [WFd] at hwf
    by_cases hk : k₁ = k
    · subst hk
      simp [setD, WFd, hv, hwf.1.1, hwf.2]
    · have : keysD (setD rest k v) = keysD rest ∨
          keysD (setD rest k v) = keysD rest ++ [k] := by
        by_cases hm : k ∈ keysD rest
        · exact Or.inl (keysD_setD_of_mem rest v hm)
        · exact Or.inr (keysD_setD_of_not_mem rest v hm)
      have hnotin : k₁ ∉ keysD (setD rest k v) := by
        rcases this with he | he <;> rw [he]
        · exact hwf.1.1
        · simp
          exact ⟨hwf.1.1, hk⟩
      simp [setD, hk, WFd, hnotin, hwf.1.2, WFd_setD rest k v hwf.2 hv]

theorem sizeE_pos : ∀ (e : FSEntry), 1 ≤ sizeE e
  | .file _ => le_refl 1
  | .dir d => by simp [sizeE]

theorem listSizeE_valuesAt_le : ∀ (A : FSDir) (k : String),
    listSizeE (valuesAt k A) ≤ sizeD A
  | .nil, k => by simp [valuesAt, listSizeE, sizeD]
  | .cons k₁ e rest, k => by
    have ih := listSizeE_valuesAt_le rest k
    by_cases hk : k₁ = k <;>
      simp [valuesAt, hk, listSizeE, sizeD] at * <;> omega

theorem valsWF_mem : ∀ (A : FSDir) {k : String} {e : FSEntry},
    valsWF A = true → e ∈ valuesAt k A → WFe e = true
  | .nil, k, e, _, h => by simp [valuesAt] at h
  | .cons k₁ e₁ rest, k, e, hwf, h => by
    simp [valsWF] at hwf
    by_cases hk : k₁ = k
    · simp [valuesAt, hk] at h
      rcases h with rfl | h
      · exact hwf.1
      · exact valsWF_mem rest hwf.2 h
    · simp [valuesAt, hk] at h
      exact valsWF_mem rest hwf.2 h

theorem overlay_step (k : String) (e : FSEntry) (rest D : FSDir) :
    overlay (.cons k e rest) D =
      match mergeOpt e (lookupD D k) with
      | none => none
      | some r => overlay rest (setD D k r) := by
  rcases h : lookupD D k with _ | d
  · simp [overlay, h, mergeOpt]
  · simp [overlay, h, mergeOpt]

theorem mergeOpt_none (e : FSEntry) : mergeOpt e none = some e := rfl

theorem mergeOpt_some (e d : FSEntry) : mergeOpt e (some d) = mergeE e d := rfl

mutual
theorem mergeE_WF : ∀ (e d r : FSEntry), mergeE e d = some r →
    WFe e = true → WFe d = true → WFe r = true
  | .file c, .file c₂, r, h, _, _ => by
    simp [mergeE] at h
    simp [← h, WFe]
  | .file _, .dir _, r, h, _, _ => by simp [mergeE] at h
  | .dir _, .file _, r, h, _, _ => by simp [mergeE] at h
  | .dir a, .dir d, r, h, he, hd => by
    unfold mergeE at h
    rcases ho : overlay a d with _ | R <;> rw [ho] at h
    · cases h
    · cases h
      simp only [WFe] at he hd ⊢
      exact overlay_WF a d R ho (valsWF_of_WFd a he) hd

theorem overlay_WF : ∀ (A D R : FSDir), overlay A D = some R →
    valsWF A = true → WFd D = true → WFd R = true
  | .nil, D, R, h, _, hd => by
    cases h
    exact hd
  | .cons k e rest, D, R, h, ha, hd => by
    simp [valsWF] at ha
    unfold overlay at h
    split at h
    next hl =>
      exact overlay_WF rest (setD D k e) R h ha.2 (WFd_setD D k e hd ha.1)
    next d hl =>
      split at h
      next hm => cases h
      next r hm =>
        exact overlay_WF rest (setD D k r) R h ha.2
          (WFd_setD D k r hd (mergeE_WF e d r hm ha.1 (lookupD_WF D hd hl)))
end

theorem chainM_append_of : ∀ (xs ys : List FSEntry) (v u w : Option FSEntry),
    chainM xs v = some u → chainM ys u = some w →
    chainM (xs ++ ys) v = some w
  | [], ys, v, u, w, h₁, h₂ => by
    cases h₁
    simpa using h₂
  | e :: xs, ys, v, u, w, h₁, h₂ => by
    rw [List.cons_append]
    unfold chainM at h₁ ⊢
    split at h₁
    · cases h₁
    next r hm =>
      exact chainM_append_of xs ys _ u w h₁ h₂

theorem chainM_append_inv : ∀ (xs ys : List FSEntry) (v w : Option FSEntry),
    chainM (xs ++ ys) v = some w →
    ∃ u, chainM xs v = some u ∧ chainM ys u = some w
  | [], ys, v, w, h => ⟨v, rfl, by simpa using h⟩
  | e :: xs, ys, v, w, h => by
    rw [List.cons_append] at h
    unfold chainM at h
    split at h
    · cases h
    next r hm =>
      obtain ⟨u, h₁, h₂⟩ := chainM_append_inv xs ys (some r) w h
      refine ⟨u, ?_, h₂⟩
      unfold chainM
      rw [hm]
      exact h₁

theorem overlay_lookup : ∀ (A D R : FSDir), overlay A D = some R →
    ∀ k, chainM (valuesAt k A) (lookupD D k) = some (lookupD R k)
  | .nil, D, R, h, k => by
    cases h
    simp [valuesAt, chainM]
  | .cons k₁ e rest, D, R, h, k => by
    rw [overlay_step] at h
    split at h
    · cases h
    next r hm =>
      have ih := overlay_lookup rest (setD D k₁ r) R h
      by_cases hk : k₁ = k
      · subst hk
        have h₁ := ih k₁
        rw [lookupD_setD_self] at h₁
        rw [show valuesAt k₁ (FSDir.cons k₁ e rest) = e :: valuesAt k₁ rest
          from by simp [valuesAt]]
        unfold chainM
        rw [hm]
        exact h₁
      · have h₁ := ih k
        rw [lookupD_setD_ne D r hk] at h₁
        simpa [valuesAt, hk] using h₁

theorem overlay_none : ∀ (A D : FSDir), overlay A D = none →
    ∃ k, chainM (valuesAt k A) (lookupD D k) = none
  | .nil, D, h => by cases h
  | .cons k₁ e rest, D, h => by
    rw [overlay_step] at h
    split at h
    next hm =>
      refine ⟨k₁, ?_⟩
      rw [show valuesAt k₁ (FSDir.cons k₁ e rest) = e :: valuesAt k₁ rest
        from by simp [valuesAt]]
      unfold chainM
      rw [hm]
    next r hm =>
      obtain ⟨k, hk⟩ := overlay_none rest (setD D k₁ r) h
      by_cases he : k₁ = k
      · subst he
        refine ⟨k₁, ?_⟩
        rw [lookupD_setD_self] at hk
        rw [show valuesAt k₁ (FSDir.cons k₁ e rest) = e :: valuesAt k₁ rest
          from by simp [valuesAt]]
        unfold chainM
        rw [hm]
        exact hk
      · refine ⟨k, ?_⟩
        rw [lookupD_setD_ne D r he] at hk
        simpa [valuesAt, he] using hk

theorem overlay_keys_sub : ∀ (A D R : FSDir), overlay A D = some R →
    (∀ q, q ∈ keysD D → q ∈ keysD R) ∧ (∀ q, q ∈ keysD A → q ∈ keysD R)
  | .nil, D, R, h => by
    cases h
    exact ⟨fun q hq => hq, fun q hq => by simp [keysD] at hq⟩
  | .cons k₁ e rest, D, R, h => by
    rw [overlay_step] at h
    split at h
    · cases h
    next r hm =>
      have ih := overlay_keys_sub rest (setD D k₁ r) R h
      refine ⟨fun q hq => ih.1 q (mem_keysD_setD_of_mem D k₁ r hq),
        fun q hq => ?_⟩
      simp [keysD] at hq
      rcases hq with rfl | hq
      · exact ih.1 q (mem_keysD_setD_self D q r)
      · exact ih.2 q hq

theorem overlay_keys_eq : ∀ (A D R : FSDir),
    (∀ q ∈ keysD A, q ∈ keysD D) → overlay A D = some R →
    keysD R = keysD D
  | .nil, D, R, _, h => by cases h; rfl
  | .cons k₁ e rest, D, R, hsub, h => by
    rw [overlay_step] at h
    split at h
    · cases h
    next r hm =>
      have hk₁ : k₁ ∈ keysD D := hsub k₁ (by simp [keysD])
      have hset : keysD (setD D k₁ r) = keysD D := keysD_setD_of_mem D r hk₁
      have ih := overlay_keys_eq rest (setD D k₁ r) R
        (fun q hq => by rw [hset]; exact hsub q (by simp [keysD, hq])) h
      rw [ih, hset]

theorem ext_of_keys_lookup : ∀ (X Y : FSDir), keysD X = keysD Y →
    (keysD Y).Nodup → (∀ k, lookupD X k = lookupD Y k) → X = Y
  | .nil, .nil, _, _, _ => rfl
  | .nil, .cons k e r, hk, _, _ => by simp [keysD] at hk
  | .cons k e r, .nil, hk, _, _ => by simp [keysD] at hk
  | .cons k₁ e₁ r₁, .cons k₂ e₂ r₂, hk, hnd, hl => by
    simp only [keysD, List.cons.injEq] at hk
    obtain ⟨rfl, hkr⟩ := hk
    have he : e₁ = e₂ := by
      have := hl k₁
      simpa [lookupD] using this
    subst he
    simp only [keysD, List.nodup_cons] at hnd
    have hl' : ∀ k, lookupD r₁ k = lookupD r₂ k := by
      intro k
      by_cases hkk : k₁ = k
      · subst hkk
        have hn₂ : lookupD r₂ k₁ = none :=
          lookupD_eq_none_of_not_mem r₂ hnd.1
        have hn₁ : lookupD r₁ k₁ = none :=
          lookupD_eq_none_of_not_mem r₁ (by rw [hkr]; exact hnd.1)
        rw [hn₁, hn₂]
      · have := hl k
        simpa [lookupD, hkk] using this
    rw [ext_of_keys_lookup r₁ r₂ hkr hnd.2 hl']

theorem ovChain_WF : ∀ (As : List FSDir) (D W : FSDir),
    ovChain As D = some W → (∀ A ∈ As, valsWF A = true) → WFd D = true →
    WFd W = true
  | [], D, W, h, _, hd => by cases h; exact hd
  | A :: rest, D, W, h, ha, hd => by
    unfold ovChain at h
    split at h
    · cases h
    next R hR =>
      exact ovChain_WF rest R W h (fun B hB => ha B (by simp [hB]))
        (overlay_WF A D R hR (ha A (by simp)) hd)

theorem ovChain_keys_sub : ∀ (As : List FSDir) (D W : FSDir),
    ovChain As D = some W →
    (∀ q, q ∈ keysD D → q ∈ keysD W) ∧
    (∀ A ∈ As, ∀ q ∈ keysD A, q ∈ keysD W)
  | [], D, W, h => by cases h; exact ⟨fun q h => h, by simp⟩
  | A :: rest, D, W, h => by
    unfold ovChain at h
    split at h
    · cases h
    next R hR =>
      have ih := ovChain_keys_sub rest R W h
      have hov := overlay_keys_sub A D R hR
      refine ⟨fun q hq => ih.1 q (hov.1 q hq), ?_⟩
      intro B hB q hq
      rcases List.mem_cons.1 hB with rfl | hB
      · exact ih.1 q (hov.2 q hq)
      · exact ih.2 B hB q hq

theorem ovChain_lookup : ∀ (As : List FSDir) (D W : FSDir),
    ovChain As D = some W →
    ∀ k, chainM (valsAt k As) (lookupD D k) = some (lookupD W k)
  | [], D, W, h, k => by cases h; simp [valsAt, chainM]
  | A :: rest, D, W, h, k => by
    unfold ovChain at h
    split at h
    · cases h
    next R hR =>
      have h₁ := overlay_lookup A D R hR k
      have h₂ := ovChain_lookup rest R W h k
      have hsplit : valsAt k (A :: rest) = valuesAt k A ++ valsAt k rest := by
        simp [valsAt]
      rw [hsplit]
      exact chainM_append_of _ _ _ _ _ h₁ h₂

theorem ovChain_fix : ∀ (As : List FSDir) (X W : FSDir),
    (∀ k, chainM (valsAt k As) (lookupD X k) = some (lookupD W k)) →
    keysD X = keysD W →
    (∀ A ∈ As, ∀ q ∈ keysD A, q ∈ keysD W) →
    (keysD W).Nodup →
    ovChain As X = some W
  | [], X, W, hinv, hkeys, _, hnd => by
    have hX : X = W := ext_of_keys_lookup X W hkeys hnd (fun k => by
      have := hinv k
      simpa [valsAt, chainM] using this)
    rw [hX]
    rfl
  | A :: rest, X, W, hinv, hkeys, hsub, hnd => by
    have hprefix : ∀ k, ∃ u, chainM (valuesAt k A) (lookupD X k) = some u ∧
        chainM (valsAt k rest) u = some (lookupD W k) := by
      intro k
      have hk := hinv k
      rw [show valsAt k (A :: rest) = valuesAt k A ++ valsAt k rest from
        by simp [valsAt]] at hk
      exact chainM_append_inv _ _ _ _ hk
    rcases hov : overlay A X with _ | R
    · obtain ⟨k, hk⟩ := overlay_none A X hov
      obtain ⟨u, hu, _⟩ := hprefix k
      rw [hk] at hu
      cases hu
    · have hinv' : ∀ k, chainM (valsAt k rest) (lookupD R k) =
          some (lookupD W k) := by
        intro k
        obtain ⟨u, hu, htail⟩ := hprefix k
        have hR := overlay_lookup A X R hov k
        rw [hu] at hR
        injection hR with heq
        rw [← heq]
        exact htail
      have hkeysR : keysD R = keysD X :=
        overlay_keys_eq A X R
          (fun q hq => by rw [hkeys]; exact hsub A (by simp) q hq) hov
      unfold ovChain
      rw [hov]
      exact ovChain_fix rest R W hinv' (hkeysR.trans hkeys)
        (fun B hB => hsub B (by simp [hB])) hnd

theorem dirApp_nil : ∀ (D : FSDir), dirApp D .nil = D
  | .nil => rfl
  | .cons k e rest => by simp [dirApp, dirApp_nil rest]

theorem dirApp_assoc : ∀ (X Y Z : FSDir),
    dirApp (dirApp X Y) Z = dirApp X (dirApp Y Z)
  | .nil, Y, Z => rfl
  | .cons k e rest, Y, Z => by simp [dirApp, dirApp_assoc rest Y Z]

theorem setD_eq_dirApp : ∀ (D : FSDir) (k : String) (v : FSEntry),
    lookupD D k = none → setD D k v = dirApp D (.cons k v .nil)
  | .nil, k, v, _ => rfl
  | .cons k₁ e rest, k, v, h => by
    by_cases hk : k₁ = k
    · simp [lookupD, hk] at h
    · simp [lookupD, hk] at h
      simp [setD, hk, dirApp, setD_eq_dirApp rest k v h]

theorem lookupD_dirApp_none : ∀ (X Y : FSDir) {q : String},
    lookupD X q = none → lookupD Y q = none → lookupD (dirApp X Y) q = none
  | .nil, Y, q, _, h₂ => h₂
  | .cons k e rest, Y, q, h₁, h₂ => by
    by_cases hk : k = q
    · simp [lookupD, hk] at h₁
    · simp [lookupD, hk] at h₁ ⊢
      exact lookupD_dirApp_none rest Y h₁ h₂

theorem overlay_disjoint : ∀ (A D : FSDir),
    (∀ k ∈ keysD A, lookupD D k = none) → (keysD A).Nodup →
    overlay A D = some (dirApp D A)
  | .nil, D, _, _ => by rw [dirApp_nil]; rfl
  | .cons k e rest, D, hdisj, hnd => by
    rw [overlay_step]
    have hlk : lookupD D k = none := hdisj k (by simp [keysD])
    rw [hlk, mergeOpt_none]
    show overlay rest (setD D k e) = some (dirApp D (FSDir.cons k e rest))
    rw [setD_eq_dirApp D k e hlk]
    simp only [keysD, List.nodup_cons] at hnd
    have hd₂ : ∀ q ∈ keysD rest,
        lookupD (dirApp D (.cons k e .nil)) q = none := by
      intro q hq
      have hne : k ≠ q := fun he => hnd.1 (he ▸ hq)
      exact lookupD_dirApp_none D _ (hdisj q (by simp [keysD, hq]))
        (by simp [lookupD, hne])
    have hrec := overlay_disjoint rest (dirApp D (.cons k e .nil)) hd₂ hnd.2
    rw [hrec, dirApp_assoc]
    rfl

theorem overlay_nil_self (A : FSDir) (h : WFd A = true) :
    overlay A .nil = some A := by
  have := overlay_disjoint A .nil (fun k _ => rfl) (WFd_nodup_keys A h)
  simpa [dirApp] using this

theorem lookupD_WFopt (D : FSDir) (hd : WFd D = true) (k : String) :
    WFopt (lookupD D k) = true := by
  rcases h : lookupD D k with _ | e
  · rfl
  · simpa [WFopt] using lookupD_WF D hd h

theorem valsAt_WF (As : List FSDir) (hwf : ∀ A ∈ As, valsWF A = true)
    (k : String) : ∀ e ∈ valsAt k As, WFe e = true := by
  intro e he
  simp only [valsAt, List.mem_flatMap] at he
  obtain ⟨A, hA, heA⟩ := he
  exact valsWF_mem A (hwf A hA) heA

theorem listSizeE_map_dir : ∀ (As : List FSDir),
    listSizeE (As.map FSEntry.dir) = As.length + listSizeD As
  | [] => rfl
  | A :: rest => by
    have ih := listSizeE_map_dir rest
    simp [listSizeE, listSizeD, sizeE] at ih ⊢
    omega

theorem listSizeE_valsAt_le : ∀ (As : List FSDir) (k : String),
    listSizeE (valsAt k As) ≤ listSizeD As
  | [], k => by simp [valsAt, listSizeE, listSizeD]
  | A :: rest, k => by
    have h₁ := listSizeE_valuesAt_le A k
    have h₂ := listSizeE_valsAt_le rest k
    simp only [valsAt, List.flatMap_cons, listSizeE, listSizeD, List.map_cons,
      List.map_append, List.sum_cons, List.sum_append] at *
    omega

theorem fileChain : ∀ (es : List FSEntry) (c : List Nat) (w : Option FSEntry),
    chainM es (some (.file c)) = some w → ∃ c', w = some (.file c')
  | [], c, w, h => by cases h; exact ⟨c, rfl⟩
  | e :: es, c, w, h => by
    unfold chainM at h
    split at h
    · cases h
    next r hm =>
      cases e with
      | file c₂ =>
        rw [mergeOpt_some] at hm
        unfold mergeE at hm
        injection hm with h'
        rw [← h'] at h
        exact fileChain es c₂ w h
      | dir a =>
        rw [mergeOpt_some] at hm
        unfold mergeE at hm
        cases hm

theorem dirChain : ∀ (es : List FSEntry) (X : FSDir) (w : Option FSEntry),
    chainM es (some (.dir X)) = some w →
    ∃ As W, es = As.map FSEntry.dir ∧ ovChain As X = some W ∧
      w = some (.dir W)
  | [], X, w, h => by cases h; exact ⟨[], X, rfl, rfl, rfl⟩
  | e :: es, X, w, h => by
    unfold chainM at h
    split at h
    · cases h
    next r hm =>
      cases e with
      | file c =>
        rw [mergeOpt_some] at hm
        unfold mergeE at hm
        cases hm
      | dir A =>
        rw [mergeOpt_some] at hm
        unfold mergeE at hm
        rcases ho : overlay A X with _ | R <;> rw [ho] at hm
        · cases hm
        · injection hm with hr
          rw [← hr] at h
          obtain ⟨As, W, hes, hchain, hw⟩ := dirChain es R w h
          refine ⟨A :: As, W, by rw [hes]; rfl, ?_, hw⟩
          unfold ovChain
          rw [ho]
          exact hchain

theorem ovChain_to_chainM : ∀ (As : List FSDir) (X W : FSDir),
    ovChain As X = some W →
    chainM (As.map FSEntry.dir) (some (.dir X)) = some (some (.dir W))
  | [], X, W, h => by cases h; rfl
  | A :: rest, X, W, h => by
    unfold ovChain at h
    split at h
    · cases h
    next R hR =>
      rw [List.map_cons]
      have hme : mergeE (.dir A) (.dir X) = some (.dir R) := by
        unfold mergeE
        rw [hR]
      unfold chainM
      rw [mergeOpt_some, hme]
      exact ovChain_to_chainM rest R W h

theorem merge_twice (n : Nat) :
    (∀ (As : List FSDir) (D W : FSDir), listSizeD As < n →
      (∀ A ∈ As, valsWF A = true) → WFd D = true →
      ovChain As D = some W → ovChain As W = some W) ∧
    (∀ (es : List FSEntry) (v w : Option FSEntry), listSizeE es ≤ n →
      (∀ e ∈ es, WFe e = true) → WFopt v = true →
      chainM es v = some w → chainM es w = some w) := by
  induction n with
  | zero =>
    constructor
    · intro As D W h
      omega
    · intro es v w hsz hwf hv h
      cases es with
      | nil =>
        cases h
        rfl
      | cons e es' =>
        exfalso
        have := sizeE_pos e
        simp [listSizeE] at hsz
        omega
  | succ n ih =>
    have hOV : ∀ (As : List FSDir) (D W : FSDir), listSizeD As < n + 1 →
        (∀ A ∈ As, valsWF A = true) → WFd D = true →
        ovChain As D = some W → ovChain As W = some W := by
      intro As D W hsz hwf hd hchain
      have hWFW : WFd W = true := ovChain_WF As D W hchain hwf hd
      have hfix : ∀ k, chainM (valsAt k As) (lookupD W k) =
          some (lookupD W k) := by
        intro k
        have hrun := ovChain_lookup As D W hchain k
        have hszk : listSizeE (valsAt k As) ≤ n := by
          have := listSizeE_valsAt_le As k
          omega
        exact ih.2 (valsAt k As) (lookupD D k) (lookupD W k) hszk
          (valsAt_WF As hwf k) (lookupD_WFopt D hd k) hrun
      exact ovChain_fix As W W hfix rfl
        (ovChain_keys_sub As D W hchain).2 (WFd_nodup_keys W hWFW)
    refine ⟨hOV, ?_⟩
    intro es v w hsz hwf hv hchain
    cases es with
    | nil =>
      cases hchain
      rfl
    | cons e rest =>
      unfold chainM at hchain
      split at hchain
      · cases hchain
      next r hm =>
        cases e with
        | file c =>
          have hr : r = .file c := by
            cases v with
            | none =>
              rw [mergeOpt_none] at hm
              injection hm with h'
              exact h'.symm
            | some d =>
              cases d with
              | file c₀ =>
                rw [mergeOpt_some] at hm
                unfold mergeE at hm
                injection hm with h'
                exact h'.symm
              | dir a =>
                rw [mergeOpt_some] at hm
                unfold mergeE at hm
                cases hm
          subst hr
          obtain ⟨c', hc'⟩ := fileChain rest c w hchain
          subst hc'
          unfold chainM
          have hstep : mergeOpt (.file c) (some (.file c')) = some (.file c) := by
            rw [mergeOpt_some]
            rfl
          rw [hstep]
          exact hchain
        | dir A₁ =>
          have hA₁wf : WFd A₁ = true := by
            simpa [WFe] using hwf (.dir A₁) (by simp)
          obtain ⟨D₀, W₁, hD₀, ho, hr⟩ :
              ∃ D₀ W₁, WFd D₀ = true ∧ overlay A₁ D₀ = some W₁ ∧
                r = .dir W₁ := by
            cases v with
            | none =>
              rw [mergeOpt_none] at hm
              injection hm with h'
              exact ⟨.nil, A₁, rfl, overlay_nil_self A₁ hA₁wf, h'.symm⟩
            | some d =>
              cases d with
              | file c₀ =>
                rw [mergeOpt_some] at hm
                unfold mergeE at hm
                cases hm
              | dir D₀ =>
                rw [mergeOpt_some] at hm
                unfold mergeE at hm
                rcases ho : overlay A₁ D₀ with _ | W₁ <;> rw [ho] at hm
                · cases hm
                · injection hm with h'
                  exact ⟨D₀, W₁, by simpa [WFopt, WFe] using hv, ho, h'.symm⟩
          subst hr
          obtain ⟨As, W, hes, hov, hw⟩ := dirChain rest W₁ w hchain
          have hrun : ovChain (A₁ :: As) D₀ = some W := by
            unfold ovChain
            rw [ho]
            exact hov
          have hszD : listSizeD (A₁ :: As) < n + 1 := by
            have h₁ := listSizeE_map_dir As
            rw [hes] at hsz
            simp only [listSizeE, listSizeD, sizeE, List.map_cons,
              List.sum_cons] at hsz h₁ ⊢
            omega
          have hvwf : ∀ A ∈ A₁ :: As, valsWF A = true := by
            intro A hA
            rcases List.mem_cons.1 hA with rfl | hA
            · exact valsWF_of_WFd A hA₁wf
            · have hmem : FSEntry.dir A ∈ rest := by
                rw [hes]
                exact List.mem_map_of_mem _ hA
              exact valsWF_of_WFd A
                (by simpa [WFe] using hwf (.dir A) (by simp [hmem]))
          have hova := hOV (A₁ :: As) D₀ W hszD hvwf hD₀ hrun
          subst hw
          unfold ovChain at hova
          rcases ho₂ : overlay A₁ W with _ | W₂ <;> rw [ho₂] at hova
          · cases hova
          · have hme : mergeOpt (.dir A₁) (some (.dir W)) =
                some (.dir W₂) := by
              rw [mergeOpt_some]
              unfold mergeE
              rw [ho₂]
            unfold chainM
            rw [hme]
            show chainM rest (some (.dir W₂)) = some (some (.dir W))
            rw [hes]
            exact ovChain_to_chainM As W₂ W hova

theorem copyOnePath_file (env : Env) (c : List Nat) (e : YElem) :
    copyOnePath env (.file c) e =
      match env.readEntry (strOf e) with
      | some (.file c₂) => some (.file c₂)
      | _ => none := by
  unfold copyOnePath
  rcases h : env.readEntry (strOf e) with _ | src
  · rfl
  · cases src <;> rfl

theorem copyOnePath_dir (env : Env) (s : FSDir) (e : YElem) :
    copyOnePath env (.dir s) e =
      match env.readEntry (strOf e) with
      | none => none
      | some src =>
        match mergeOpt src (lookupD s (env.basename (strOf e))) with
        | none => none
        | some r => some (.dir (setD s (env.basename (strOf e)) r)) := by
  unfold copyOnePath
  rcases h : env.readEntry (strOf e) with _ | src
  · rfl
  · cases src <;> rfl

theorem copy_file_shape : ∀ (env : Env) (paths : List YElem) (c : List Nat)
    (s : FSEntry), copy_to_subdir env (.file c) paths = some s →
    ∃ c', s = .file c'
  | env, [], c, s, h => by cases h; exact ⟨c, rfl⟩
  | env, e :: es, c, s, h => by
    unfold copy_to_subdir at h
    split at h
    · cases h
    next s₁ hstep =>
      rw [copyOnePath_file] at hstep
      rcases hre : env.readEntry (strOf e) with _ | src <;> rw [hre] at hstep
      · cases hstep
      · cases src with
        | file c₂ =>
          injection hstep with hs₁
          rw [← hs₁] at h
          exact copy_file_shape env es c₂ s h
        | dir a => cases hstep

theorem copy_file_twice : ∀ (env : Env) (paths : List YElem) (c : List Nat)
    (s : FSEntry), copy_to_subdir env (.file c) paths = some s →
    copy_to_subdir env s paths = some s
  | env, [], c, s, h => by cases h; rfl
  | env, e :: es, c, s, h => by
    unfold copy_to_subdir at h
    split at h
    · cases h
    next s₁ hstep =>
      rw [copyOnePath_file] at hstep
      rcases hre : env.readEntry (strOf e) with _ | src <;> rw [hre] at hstep
      · cases hstep
      · cases src with
        | dir a => cases hstep
        | file c₂ =>
          injection hstep with hs₁
          rw [← hs₁] at h
          obtain ⟨c', hs⟩ := copy_file_shape env es c₂ s h
          subst hs
          unfold copy_to_subdir
          have hstep₂ : copyOnePath env (.file c') e = some (.file c₂) := by
            rw [copyOnePath_file, hre]
          rw [hstep₂]
          exact h

theorem copy_dir_to_overlay : ∀ (env : Env) (paths : List YElem) (s : FSDir)
    (out : FSEntry), copy_to_subdir env (.dir s) paths = some out →
    ∃ ps R, pathPairs env paths = some ps ∧ overlay ps s = some R ∧
      out = .dir R
  | env, [], s, out, h => by
    cases h
    exact ⟨.nil, s, rfl, rfl, rfl⟩
  | env, e :: es, s, out, h => by
    unfold copy_to_subdir at h
    split at h
    · cases h
    next s₁ hstep =>
      rw [copyOnePath_dir] at hstep
      rcases hre : env.readEntry (strOf e) with _ | src <;> rw [hre] at hstep
      · cases hstep
      · dsimp only at hstep
        rcases hm : mergeOpt src (lookupD s (env.basename (strOf e)))
          with _ | r <;> rw [hm] at hstep
        · cases hstep
        · injection hstep with hs₁
          rw [← hs₁] at h
          obtain ⟨ps, R, hps, hov, hout⟩ := copy_dir_to_overlay env es
            (setD s (env.basename (strOf e)) r) out h
          refine ⟨.cons (env.basename (strOf e)) src ps, R, ?_, ?_, hout⟩
          · unfold pathPairs
            rw [hre, hps]
          · rw [overlay_step, hm]
            exact hov

theorem overlay_to_copy_dir : ∀ (env : Env) (paths : List YElem)
    (ps s R : FSDir), pathPairs env paths = some ps →
    overlay ps s = some R →
    copy_to_subdir env (.dir s) paths = some (.dir R)
  | env, [], ps, s, R, hps, hov => by
    cases hps
    cases hov
    rfl
  | env, e :: es, ps, s, R, hps, hov => by
    unfold pathPairs at hps
    rcases hre : env.readEntry (strOf e) with _ | src <;> rw [hre] at hps
    · cases hps
    · rcases hps₂ : pathPairs env es with _ | r₂ <;> rw [hps₂] at hps
      · cases hps
      · injection hps with hps'
        rw [← hps'] at hov
        rw [overlay_step] at hov
        rcases hm : mergeOpt src (lookupD s (env.basename (strOf e)))
          with _ | r <;> rw [hm] at hov
        · cases hov
        · unfold copy_to_subdir
          have hstep : copyOnePath env (.dir s) e =
              some (.dir (setD s (env.basename (strOf e)) r)) := by
            rw [copyOnePath_dir, hre]
            dsimp only
            rw [hm]
          rw [hstep]
          exact overlay_to_copy_dir env es r₂ _ R hps₂ hov

theorem pathPairs_WF : ∀ (env : Env) (paths : List YElem) (ps : FSDir),
    (∀ p e, env.readEntry p = some e → WFe e = true) →
    pathPairs env paths = some ps → valsWF ps = true
  | env, [], ps, _, h => by cases h; rfl
  | env, e :: es, ps, hwf, h => by
    unfold pathPairs at h
    rcases hre : env.readEntry (strOf e) with _ | src <;> rw [hre] at h
    · cases h
    · rcases hps : pathPairs env es with _ | r <;> rw [hps] at h
      · cases h
      · cases h
        simp [valsWF, hwf _ _ hre, pathPairs_WF env es r hwf hps]

/-- C9: the merge-copy of one group is idempotent.  For every destination
root on a well-formed filesystem, group name, and list of source paths all
readable from a well-formed source filesystem, if one run of the group copy
(`__make_backup_subdir` followed by `__copy_to_subdir`) succeeds, a second
run from the produced state succeeds and leaves the destination byte for
byte identical: the group slot is reused without error, files are
overwritten in place with the same contents, and directory merges add
nothing new. -/
theorem copy_group_idempotent (env : Env) (root : FSDir) (name : String)
    (paths : List YElem) (d₁ : FSDir)
    (henv : ∀ p e, env.readEntry p = some e → WFe e = true)
    (hroot : WFd root = true)
    (h₁ : copyGroupTo env root name paths = some d₁) :
    copyGroupTo env d₁ name paths = some d₁ := by
  unfold copyGroupTo at h₁
  rcases hc : copy_to_subdir env (make_backup_subdir root name) paths
    with _ | s₁ <;> rw [hc] at h₁
  · cases h₁
  · injection h₁ with hd₁
    subst hd₁
    have hsub₂ : make_backup_subdir (setD root name s₁) name = s₁ := by
      unfold make_backup_subdir
      rw [lookupD_setD_self]
    have hcopy₂ : copy_to_subdir env s₁ paths = some s₁ := by
      rcases hslot : make_backup_subdir root name with c₀ | s₀ <;>
        rw [hslot] at hc
      · exact copy_file_twice env paths c₀ s₁ hc
      · have hs₀ : WFd s₀ = true := by
          unfold make_backup_subdir at hslot
          rcases hl : lookupD root name with _ | e₀ <;> rw [hl] at hslot <;>
            dsimp only at hslot
          · injection hslot with h'
            rw [← h']
            rfl
          · have he₀ := lookupD_WF root hroot hl
            rw [hslot] at he₀
            simpa [WFe] using he₀
        obtain ⟨ps, R, hps, hov, hout⟩ := copy_dir_to_overlay env paths s₀
          s₁ hc
        subst hout
        have hps_wf : valsWF ps = true := pathPairs_WF env paths ps henv hps
        have hchain : ovChain [ps] s₀ = some R := by
          unfold ovChain
          rw [hov]
          rfl
        have htwice := (merge_twice (listSizeD [ps] + 1)).1 [ps] s₀ R
          (by omega)
          (by intro A hA; simp at hA; subst hA; exact hps_wf)
          hs₀ hchain
        unfold ovChain at htwice
        rcases ho₂ : overlay ps R with _ | X <;> rw [ho₂] at htwice
        · cases htwice
        · injection htwice with hX
          rw [hX] at ho₂
          exact overlay_to_copy_dir env paths ps R R hps ho₂
    unfold copyGroupTo
    rw [hsub₂, hcopy₂]
    show some (setD (setD root name s₁) name s₁) = some (setD root name s₁)
    rw [setD_lookup_id (setD root name s₁) (lookupD_setD_self root name s₁)]

/-- C9 witness: copying the group `g = [/a]` into an empty root twice gives
the same tree as doing it once. -/
theorem copy_group_idempotent_witness :
    copyGroupTo envC FSDir.nil "g" [.str "/a"] = some dOne ∧
    copyGroupTo envC dOne "g" [.str "/a"] = some dOne := by
  have h₁ : copyGroupTo envC FSDir.nil "g" [.str "/a"] = some dOne := rfl
  refine ⟨h₁, ?_⟩
  refine copy_group_idempotent envC FSDir.nil "g" [.str "/a"] dOne ?_ rfl h₁
  intro p e h
  by_cases hp : p = "/a"
  · subst hp
    simp [envC] at h
    subst h
    rfl
  · simp [envC, hp] at h

end Backupmaker
